import Mathlib

/-!
Verification of the deferred-table engine (`src/lib.rs` of `egui_deferred_table`).

The development shallowly embeds the pure computational parts of the library:

* `apply_reordering` (lib.rs 1622-1660): the ordering-permutation mutation helper;
* `range_and_index_for_offset` (lib.rs 356-400): the viewport windowing walk;
* the per-axis size-store growth logic of `show_inner` (lib.rs 226-265);
* the resize-drag staged-size computation of `show_inner` (lib.rs 620-641, 670-687);
* the resize-drag start transitions (lib.rs 611-614, 662-664);
* the drag-and-drop release handling (lib.rs 806-819).

`f32` values are modelled as rationals (`ℚ`); `f32::INFINITY` (which in the source
only occurs as an upper bound of a `Rangef`) is modelled as `none` in an
`Option ℚ` upper bound.  A Rust `panic!` (from `Option::unwrap` /
slice-index failure) is modelled by an `Option`-valued result, `none` meaning
the panic.
-/

/-! ### `apply_reordering` (lib.rs 1622-1660) -/

/-- The growth loop of `apply_reordering` (lib.rs 1643-1645):
`while ordering.len() <= max_index { ordering.push(ordering.len()); }`.
Each push appends the current length, so the loop appends exactly the
consecutive values `v.length, v.length + 1, ...` until the length
exceeds `maxIndex`. -/
def growOrdering (v : List Nat) (maxIndex : Nat) : List Nat :=
  v ++ List.range' v.length (maxIndex + 1 - v.length)

/-- `apply_reordering` (lib.rs 1622-1660).  The Rust function mutates
`ordering : &mut Option<Vec<usize>>` in place; here the final contents are
returned.  The outer `Option` models the possible panic of the two
`position(..).unwrap()` calls (lib.rs 1652-1653): `none` is the panic. -/
def apply_reordering (ordering : Option (List Nat)) (fromIdx toIdx : Nat) :
    Option (Option (List Nat)) :=
  if fromIdx = toIdx then
    some ordering
  else
    let v := growOrdering (ordering.getD []) (max fromIdx toIdx)
    match List.findIdx? (fun x => x == fromIdx) v, List.findIdx? (fun x => x == toIdx) v with
    | some fromPos, some toPos => some (some ((v.eraseIdx fromPos).insertIdx toPos fromIdx))
    | _, _ => none

theorem growOrdering_length (v : List Nat) (maxIndex : Nat) :
    (growOrdering v maxIndex).length = max v.length (maxIndex + 1) := by
  simp only [growOrdering, List.length_append, List.length_range']
  rcases Nat.le_total v.length (maxIndex + 1) with h | h
  · rw [Nat.max_eq_right h]; omega
  · rw [Nat.max_eq_left h]; omega

theorem growOrdering_perm (v : List Nat) (maxIndex : Nat)
    (h : v.Perm (List.range v.length)) :
    (growOrdering v maxIndex).Perm (List.range (max v.length (maxIndex + 1))) := by
  unfold growOrdering
  rcases Nat.le_total (maxIndex + 1) v.length with hle | hle
  · have hz : maxIndex + 1 - v.length = 0 := by omega
    have hm : max v.length (maxIndex + 1) = v.length := Nat.max_eq_left hle
    simpa [hz, hm] using h
  · have hk : v.length + (maxIndex + 1 - v.length) = max v.length (maxIndex + 1) := by
      rw [Nat.max_eq_right hle]; omega
    have happ : (v ++ List.range' v.length (maxIndex + 1 - v.length)).Perm
        (List.range v.length ++ List.range' v.length (maxIndex + 1 - v.length)) :=
      h.append_right _
    have hrange : List.range v.length ++ List.range' v.length (maxIndex + 1 - v.length)
        = List.range (max v.length (maxIndex + 1)) := by
      rw [List.range_eq_range', List.range_eq_range']
      have := List.range'_append 0 v.length (maxIndex + 1 - v.length) 1
      simp only [Nat.zero_add, Nat.one_mul] at this
      rw [this, Nat.add_comm (maxIndex + 1 - v.length) v.length, hk]
    exact hrange ▸ happ

theorem findIdx?_isSome_of_mem {a : Nat} {l : List Nat} (h : a ∈ l) :
    (List.findIdx? (fun x => x == a) l).isSome := by
  cases hf : List.findIdx? (fun x => x == a) l with
  | some i => rfl
  | none =>
    exact absurd (List.findIdx?_eq_none_iff.mp hf a h) (by simp)

theorem perm_cons_eraseIdx_of_findIdx? {a : Nat} :
    ∀ (l : List Nat) (i : Nat), List.findIdx? (fun x => x == a) l = some i →
      l.Perm (a :: l.eraseIdx i) ∧ i < l.length
  | [], i, h => by simp [List.findIdx?_nil] at h
  | x :: xs, i, h => by
    rw [List.findIdx?_cons] at h
    by_cases hx : (x == a) = true
    · rw [if_pos hx] at h
      obtain rfl : (0 : Nat) = i := by simpa using h
      obtain rfl : x = a := by simpa using hx
      exact ⟨List.Perm.refl _, by simp⟩
    · rw [if_neg hx] at h
      rw [show (0 + 1 : Nat) = 0 + 1 from rfl, List.findIdx?_succ] at h
      cases hf : List.findIdx? (fun x => x == a) xs with
      | none => rw [hf] at h; simp at h
      | some j =>
        rw [hf] at h
        simp only [Option.map_some'] at h
        obtain rfl : j + 1 = i := by simpa using h
        obtain ⟨hperm, hlt⟩ := perm_cons_eraseIdx_of_findIdx? xs j hf
        constructor
        · rw [List.eraseIdx_cons_succ]
          exact (hperm.cons x).trans (List.Perm.swap a x _)
        · simpa using Nat.succ_lt_succ hlt

/-- The grown vector inside `apply_reordering`, its length, permutation property
and membership of `fromIdx` / `toIdx`, packaged for reuse. -/
theorem apply_reordering_spec (ordering : Option (List Nat)) (fromIdx toIdx : Nat)
    (h : ∀ v, ordering = some v → v.Perm (List.range v.length))
    (hne : fromIdx ≠ toIdx) :
    ∃ w, apply_reordering ordering fromIdx toIdx = some (some w) ∧
      w.Perm (List.range
        (max (ordering.getD []).length (max (fromIdx + 1) (toIdx + 1)))) := by
  set v : List Nat := ordering.getD [] with hv
  have hvperm : v.Perm (List.range v.length) := by
    cases ordering with
    | none => simp [hv]
    | some u => simpa [hv] using h u rfl
  set g : List Nat := growOrdering v (max fromIdx toIdx) with hg
  set N : Nat := max v.length (max fromIdx toIdx + 1) with hN
  have hperm : g.Perm (List.range N) := growOrdering_perm v _ hvperm
  have hglen : g.length = N := growOrdering_length v _
  have hfN : fromIdx < N :=
    lt_of_lt_of_le (Nat.lt_succ_of_le (Nat.le_max_left fromIdx toIdx))
      (Nat.le_max_right _ _)
  have htN : toIdx < N :=
    lt_of_lt_of_le (Nat.lt_succ_of_le (Nat.le_max_right fromIdx toIdx))
      (Nat.le_max_right _ _)
  have hfmem : fromIdx ∈ g := hperm.mem_iff.mpr (List.mem_range.mpr hfN)
  have htmem : toIdx ∈ g := hperm.mem_iff.mpr (List.mem_range.mpr htN)
  obtain ⟨fp, hfp⟩ := Option.isSome_iff_exists.mp (findIdx?_isSome_of_mem hfmem)
  obtain ⟨tp, htp⟩ := Option.isSome_iff_exists.mp (findIdx?_isSome_of_mem htmem)
  obtain ⟨hfcons, hfplt⟩ := perm_cons_eraseIdx_of_findIdx? g fp hfp
  obtain ⟨_, htplt⟩ := perm_cons_eraseIdx_of_findIdx? g tp htp
  refine ⟨(g.eraseIdx fp).insertIdx tp fromIdx, ?_, ?_⟩
  · simp only [apply_reordering, if_neg hne]
    rw [← hv, ← hg, hfp, htp]
  · have herase_len : (g.eraseIdx fp).length = g.length - 1 := by
      rw [List.length_eraseIdx]
      simp [hfplt]
    have htple : tp ≤ (g.eraseIdx fp).length := by omega
    have hins : ((g.eraseIdx fp).insertIdx tp fromIdx).Perm (fromIdx :: g.eraseIdx fp) :=
      List.perm_insertIdx fromIdx _ htple
    have hmax : N = max (ordering.getD []).length (max (fromIdx + 1) (toIdx + 1)) := by
      rw [hN, ← hv, max_add_add_right]
    exact hmax ▸ ((hins.trans hfcons.symm).trans hperm)

/-- Claim C1: `apply_reordering` produces the spec's literal results on the four
listed inputs, and is the identity whenever `from == to`, for any ordering. -/
theorem claim_c1 :
    apply_reordering (some [1, 0]) 0 1 = some (some [0, 1]) ∧
    apply_reordering (some [0, 1, 2, 3, 4, 5, 6]) 4 0 = some (some [4, 0, 1, 2, 3, 5, 6]) ∧
    apply_reordering (some []) 10 0 = some (some [10, 0, 1, 2, 3, 4, 5, 6, 7, 8, 9]) ∧
    apply_reordering (some [4, 0, 1, 2, 3, 5, 6]) 4 3 = some (some [0, 1, 2, 3, 4, 5, 6]) ∧
    ∀ (ordering : Option (List Nat)) (i : Nat), apply_reordering ordering i i = some ordering := by
  refine ⟨by decide, by decide, by decide, by decide, ?_⟩
  intro ordering i
  simp [apply_reordering]

/-- Claim C2: starting from `none` or from a permutation of `0..len`, when
`from ≠ to` the result of `apply_reordering` is a permutation of `0..N` with
`N = max(len(initial), from+1, to+1)`, and when `from == to` the ordering is
returned exactly unchanged. -/
theorem claim_c2 (ordering : Option (List Nat)) (fromIdx toIdx : Nat)
    (h : ∀ v, ordering = some v → v.Perm (List.range v.length)) :
    (fromIdx = toIdx → apply_reordering ordering fromIdx toIdx = some ordering) ∧
    (fromIdx ≠ toIdx → ∃ w, apply_reordering ordering fromIdx toIdx = some (some w) ∧
      w.Perm (List.range
        (max (ordering.getD []).length (max (fromIdx + 1) (toIdx + 1))))) := by
  constructor
  · intro heq
    simp [apply_reordering, heq]
  · intro hne
    exact apply_reordering_spec ordering fromIdx toIdx h hne

theorem claim_c2_witness :
    ∃ w, apply_reordering (some [1, 0]) 0 1 = some (some w) ∧
      w.Perm (List.range (max ((some [1, 0] : Option (List Nat)).getD []).length
        (max (0 + 1) (1 + 1)))) :=
  (claim_c2 (some [1, 0]) 0 1
    (fun v hv => by cases hv; decide)).2 (by decide)

/-- Claim C10: `apply_reordering` never panics on `none` or on a permutation of
`0..len` (the two position lookups always succeed after growth), but on the
non-permutation input `Some([0,0])` with `from = 1, to = 0` the lookup of `1`
fails and the function panics (modelled as `none`). -/
theorem claim_c10 (ordering : Option (List Nat)) (fromIdx toIdx : Nat)
    (h : ∀ v, ordering = some v → v.Perm (List.range v.length)) :
    (apply_reordering ordering fromIdx toIdx).isSome ∧
    apply_reordering (some [0, 0]) 1 0 = none := by
  refine ⟨?_, by decide⟩
  by_cases hne : fromIdx = toIdx
  · simp [apply_reordering, hne]
  · obtain ⟨w, hw, -⟩ := apply_reordering_spec ordering fromIdx toIdx h hne
    simp [hw]

theorem claim_c10_witness :
    (apply_reordering (some [1, 0]) 0 1).isSome ∧
    apply_reordering (some [0, 0]) 1 0 = none :=
  claim_c10 (some [1, 0]) 0 1 (fun v hv => by cases hv; decide)

/-! ### `range_and_index_for_offset` (lib.rs 356-400) -/

/-- The per-iteration index computation of `range_and_index_for_offset`
(lib.rs 364-368): `index = *map.get(visible_index).unwrap_or(&visible_index);
if index >= values_len { index = visible_index; }`. -/
def raifoIndex (values : List ℚ) (map : List Nat) (visibleIndex : Nat) : Nat :=
  let index0 := map.getD visibleIndex visibleIndex
  if values.length ≤ index0 then visibleIndex else index0

/-- The `loop` of `range_and_index_for_offset` (lib.rs 363-397), structurally
recursive on an explicit iteration budget `fuel`.  Each iteration either
terminates or advances `visibleIndex` by one, and the loop is forced to
terminate once `visibleIndex` reaches `max map.length values.length`
(`raifoIndex_some_bound` below), so any `fuel` exceeding that bound makes the
budget branch unreachable (`raifoLoop_ne_error`).  The Rust local `size =
value + sizing` is written out inline. -/
def raifoLoop (offset : ℚ) (values : List ℚ) (map : List Nat)
    (filterIdxs : Option (List Nat)) (sizing : ℚ) :
    Nat → Nat → ℚ → ℚ → Nat → Except Unit (ℚ × ℚ × Nat × Nat × Nat)
  | 0, _, _, _, _ => Except.error ()
  | fuel + 1, visibleIndex, mn, mx, filtered =>
    match values[raifoIndex values map visibleIndex]? with
    | none =>
      if visibleIndex = 0 then Except.error ()
      else Except.ok (mn, mx, raifoIndex values map visibleIndex, visibleIndex, filtered)
    | some value =>
      if (filterIdxs.getD []).contains (raifoIndex values map visibleIndex) then
        raifoLoop offset values map filterIdxs sizing fuel (visibleIndex + 1) mn mx (filtered + 1)
      else
        if mn ≤ offset ∧ offset < mx + (value + sizing) then
          Except.ok (mn, mx + (value + sizing), raifoIndex values map visibleIndex,
            visibleIndex, filtered)
        else
          raifoLoop offset values map filterIdxs sizing fuel (visibleIndex + 1)
            (mn + (value + sizing)) (mx + (value + sizing)) filtered

/-- `range_and_index_for_offset` (lib.rs 356-400).  The result components are
the pixel range `min..max`, the mapped data index, the visible position and the
filtered count; `Except.error ()` is the `Err(())` of the source. -/
def range_and_index_for_offset (offset : ℚ) (values : List ℚ) (map : List Nat)
    (filterIdxs : Option (List Nat)) (sizing : ℚ) :
    Except Unit (ℚ × ℚ × Nat × Nat × Nat) :=
  raifoLoop offset values map filterIdxs sizing (max map.length values.length + 1) 0 0 0 0

theorem raifoIndex_some_bound {values : List ℚ} {map : List Nat} {i : Nat} {v : ℚ}
    (h : values[raifoIndex values map i]? = some v) :
    i < max map.length values.length := by
  unfold raifoIndex at h
  by_cases hm : i < map.length
  · exact lt_of_lt_of_le hm (le_max_left _ _)
  · have hd : map.getD i i = i := by
      rw [List.getD_eq_getElem?_getD, List.getElem?_eq_none (by omega), Option.getD_none]
    rw [hd, ite_self] at h
    obtain ⟨hlt, -⟩ := List.getElem?_eq_some.mp h
    exact lt_of_lt_of_le hlt (le_max_right _ _)

theorem raifoIndex_zero_lt {values : List ℚ} (map : List Nat) (hne : values ≠ []) :
    raifoIndex values map 0 < values.length := by
  unfold raifoIndex
  have h0 : 0 < values.length := List.length_pos.mpr hne
  by_cases h : values.length ≤ map.getD 0 0
  · rw [if_pos h]
    exact h0
  · rw [if_neg h]
    omega

theorem raifoLoop_ne_error (offset : ℚ) (values : List ℚ) (map : List Nat)
    (filterIdxs : Option (List Nat)) (sizing : ℚ) (hne : values ≠ []) :
    ∀ (fuel i : Nat) (mn mx : ℚ) (filtered : Nat),
      i ≤ max map.length values.length → max map.length values.length < i + fuel →
      raifoLoop offset values map filterIdxs sizing fuel i mn mx filtered ≠
        Except.error () := by
  intro fuel
  induction fuel with
  | zero =>
    intro i mn mx filtered hi hlt
    exact absurd hlt (by omega)
  | succ f ih =>
    intro i mn mx filtered hi hlt heq
    rw [raifoLoop] at heq
    split at heq
    · rename_i hv
      by_cases h0 : i = 0
      · subst h0
        have hlt0 := raifoIndex_zero_lt map hne
        rw [List.getElem?_eq_getElem hlt0] at hv
        exact Option.noConfusion hv
      · rw [if_neg h0] at heq
        exact Except.noConfusion heq
    · rename_i v hv
      have hib : i < max map.length values.length := raifoIndex_some_bound hv
      by_cases hf : ((filterIdxs.getD []).contains (raifoIndex values map i)) = true
      · rw [if_pos hf] at heq
        exact ih (i + 1) mn mx (filtered + 1) (by omega) (by omega) heq
      · rw [if_neg hf] at heq
        by_cases hoff : mn ≤ offset ∧ offset < mx + (v + sizing)
        · rw [if_pos hoff] at heq
          exact Except.noConfusion heq
        · rw [if_neg hoff] at heq
          exact ih (i + 1) _ _ filtered (by omega) (by omega) heq

/-- Claim C6: `range_and_index_for_offset` fails exactly when the sizes slice is
empty, for every offset, ordering map (including out-of-range entries), filter
and spacing value. -/
theorem claim_c6 (offset : ℚ) (values : List ℚ) (map : List Nat)
    (filterIdxs : Option (List Nat)) (sizing : ℚ) :
    range_and_index_for_offset offset values map filterIdxs sizing = Except.error () ↔
      values = [] := by
  constructor
  · intro h
    by_contra hne
    exact raifoLoop_ne_error offset values map filterIdxs sizing hne _ 0 0 0 0
      (Nat.zero_le _) (by omega) h
  · rintro rfl
    simp [range_and_index_for_offset, raifoLoop, raifoIndex]

theorem raifoIndex_nil_map (values : List ℚ) (i : Nat) :
    raifoIndex values [] i = i := by
  unfold raifoIndex
  simp [List.getD]

/-- On a uniform axis (`n` cells of stored size `v`, spacing `s`, outer size
`S = v + s`), with the walk entered at position `i ≤ k` (where `k` is the cell
whose pixel range holds `offset`) and accumulators `min = max = i*S`, the loop
stops at position `k`. -/
theorem raifoLoop_uniform (n : Nat) (v s S o : ℚ) (hS : v + s = S) (hSpos : 0 < S)
    (k : Nat) (hk1 : (k : ℚ) * S ≤ o) (hk2 : o < ((k : ℚ) + 1) * S) (hkn : k < n) :
    ∀ (fuel i : Nat), i ≤ k → k < i + fuel →
      raifoLoop o (List.replicate n v) [] none s fuel i ((i : ℚ) * S) ((i : ℚ) * S) 0 =
        Except.ok ((k : ℚ) * S, ((k : ℚ) + 1) * S, k, k, 0) := by
  intro fuel
  induction fuel with
  | zero =>
    intro i hik hlt
    exact absurd hlt (by omega)
  | succ f ih =>
    intro i hik hlt
    have hin : i < n := lt_of_le_of_lt hik hkn
    rw [raifoLoop, raifoIndex_nil_map, List.getElem?_replicate, if_pos hin]
    simp only [Option.getD_none, List.contains_nil, Bool.false_eq_true, if_false]
    by_cases hik' : i = k
    · subst hik'
      have hcond : (i : ℚ) * S ≤ o ∧ o < (i : ℚ) * S + (v + s) := by
        refine ⟨hk1, ?_⟩
        rw [hS]
        nlinarith [hk2]
      rw [if_pos hcond]
      have : (i : ℚ) * S + (v + s) = ((i : ℚ) + 1) * S := by rw [hS]; ring
      rw [this]
    · have hik2 : i < k := lt_of_le_of_ne hik hik'
      have hcond : ¬((i : ℚ) * S ≤ o ∧ o < (i : ℚ) * S + (v + s)) := by
        rintro ⟨-, h2⟩
        rw [hS] at h2
        have hle : ((i : ℚ) + 1) * S ≤ (k : ℚ) * S := by
          have hc : ((i : ℚ) + 1) ≤ (k : ℚ) := by exact_mod_cast Nat.succ_le_of_lt hik2
          exact mul_le_mul_of_nonneg_right hc hSpos.le
        nlinarith [hk1]
      rw [if_neg hcond]
      have hstep : (i : ℚ) * S + (v + s) = (((i + 1 : Nat) : ℚ)) * S := by
        rw [hS]; push_cast; ring
      rw [hstep]
      exact ih (i + 1) (by omega) (by omega)

/-- Claim C3: on a uniform axis of `n` cells of outer size `S` (stored size `v`
plus spacing `s`), with no ordering and no filter, an offset `0 ≤ o < n*S`
resolves to position `⌊o/S⌋`, data index `⌊o/S⌋`, pixel range
`[⌊o/S⌋*S, (⌊o/S⌋+1)*S)` and filtered count `0`. -/
theorem claim_c3 (n : Nat) (v s S o : ℚ) (hS : v + s = S) (h0 : 0 ≤ o)
    (hn : o < (n : ℚ) * S) :
    range_and_index_for_offset o (List.replicate n v) [] none s =
      Except.ok (((⌊o / S⌋.toNat : ℚ)) * S, ((⌊o / S⌋.toNat : ℚ) + 1) * S,
        ⌊o / S⌋.toNat, ⌊o / S⌋.toNat, 0) := by
  have hnpos : 0 < n := by
    rcases Nat.eq_zero_or_pos n with rfl | h
    · exfalso
      rw [Nat.cast_zero, zero_mul] at hn
      linarith
    · exact h
  have hSpos : 0 < S := by
    rcases lt_trichotomy S 0 with h | h | h
    · exfalso
      have : (n : ℚ) * S ≤ 0 := mul_nonpos_of_nonneg_of_nonpos (Nat.cast_nonneg n) h.le
      linarith
    · exfalso
      rw [h, mul_zero] at hn
      linarith
    · exact h
  set k : Nat := ⌊o / S⌋.toNat with hkdef
  have hflnn : 0 ≤ ⌊o / S⌋ := Int.floor_nonneg.mpr (div_nonneg h0 hSpos.le)
  have hfl : ((k : ℤ)) = ⌊o / S⌋ := Int.toNat_of_nonneg hflnn
  have hk1 : (k : ℚ) * S ≤ o := by
    have h1 : ((k : ℚ)) ≤ o / S := by
      have := Int.floor_le (o / S)
      rw [← hfl] at this
      exact_mod_cast this
    calc (k : ℚ) * S ≤ (o / S) * S := mul_le_mul_of_nonneg_right h1 hSpos.le
    _ = o := div_mul_cancel₀ o hSpos.ne'
  have hk2 : o < ((k : ℚ) + 1) * S := by
    have h1 : o / S < (k : ℚ) + 1 := by
      have := Int.lt_floor_add_one (o / S)
      rw [← hfl] at this
      exact_mod_cast this
    calc o = (o / S) * S := (div_mul_cancel₀ o hSpos.ne').symm
    _ < ((k : ℚ) + 1) * S := mul_lt_mul_of_pos_right h1 hSpos
  have hkn : k < n := by
    have h1 : o / S < (n : ℚ) := (div_lt_iff₀ hSpos).mpr hn
    have h2 : ⌊o / S⌋ < (n : ℤ) := Int.floor_lt.mpr (by exact_mod_cast h1)
    omega
  have hmain := raifoLoop_uniform n v s S o hS hSpos k hk1 hk2 hkn
    (max ([] : List Nat).length (List.replicate n v).length + 1) 0 (Nat.zero_le k)
    (by simp only [List.length_nil, List.length_replicate]; omega)
  rw [Nat.cast_zero, zero_mul] at hmain
  exact hmain

theorem claim_c3_witness :
    range_and_index_for_offset 7 (List.replicate 3 4) [] none 1 =
      Except.ok (5, 10, 1, 1, 0) := by
  have h := claim_c3 3 4 1 5 7 (by norm_num) (by norm_num) (by norm_num)
  have hfl : ⌊(7 : ℚ) / 5⌋ = 1 := by norm_num
  rw [hfl] at h
  norm_num at h
  exact h

/-- On a uniform axis with the single data index `k` filtered out, the walk
entered at position `i ≤ k` with accumulators `min = max = i*S` skips `k`
(zero pixels, filtered count 1) and stops at position `k+1`, returning the
pixel range `[k*S, (k+1)*S)`. -/
theorem raifoLoop_uniform_filtered (n : Nat) (v s S o : ℚ) (hS : v + s = S)
    (hSpos : 0 < S) (k : Nat) (hk1 : (k : ℚ) * S ≤ o) (hk2 : o < ((k : ℚ) + 1) * S)
    (hkn : k + 1 < n) :
    ∀ (fuel i : Nat), i ≤ k → k + 1 < i + fuel →
      raifoLoop o (List.replicate n v) [] (some [k]) s fuel i ((i : ℚ) * S) ((i : ℚ) * S) 0 =
        Except.ok ((k : ℚ) * S, ((k : ℚ) + 1) * S, k + 1, k + 1, 1) := by
  intro fuel
  induction fuel with
  | zero =>
    intro i hik hlt
    exact absurd hlt (by omega)
  | succ f ih =>
    intro i hik hlt
    have hin : i < n := by omega
    rw [raifoLoop, raifoIndex_nil_map, List.getElem?_replicate, if_pos hin]
    simp only [Option.getD_some]
    by_cases hik' : i = k
    · subst hik'
      have hc : ([i].contains i) = true := by simp
      rw [if_pos hc]
      obtain ⟨f', rfl⟩ : ∃ f', f = f' + 1 := ⟨f - 1, by omega⟩
      have hin1 : i + 1 < n := by omega
      rw [raifoLoop, raifoIndex_nil_map, List.getElem?_replicate, if_pos hin1]
      have hc1 : ([i].contains (i + 1)) = false := by simp
      simp only [Option.getD_some, hc1, Bool.false_eq_true, if_false]
      have hcond : (i : ℚ) * S ≤ o ∧ o < (i : ℚ) * S + (v + s) := by
        refine ⟨hk1, ?_⟩
        rw [hS]
        nlinarith [hk2]
      rw [if_pos hcond]
      have : (i : ℚ) * S + (v + s) = ((i : ℚ) + 1) * S := by rw [hS]; ring
      rw [this]
    · have hik2 : i < k := lt_of_le_of_ne hik hik'
      have hc : ([k].contains i) = false := by simp; omega
      simp only [hc, Bool.false_eq_true, if_false]
      have hcond : ¬((i : ℚ) * S ≤ o ∧ o < (i : ℚ) * S + (v + s)) := by
        rintro ⟨-, h2⟩
        rw [hS] at h2
        have hle : ((i : ℚ) + 1) * S ≤ (k : ℚ) * S := by
          have hc' : ((i : ℚ) + 1) ≤ (k : ℚ) := by exact_mod_cast Nat.succ_le_of_lt hik2
          exact mul_le_mul_of_nonneg_right hc' hSpos.le
        nlinarith [hk1]
      rw [if_neg hcond]
      have hstep : (i : ℚ) * S + (v + s) = (((i + 1 : Nat) : ℚ)) * S := by
        rw [hS]; push_cast; ring
      rw [hstep]
      exact ih (i + 1) (by omega) (by omega)

/-- Claim C4: on a uniform axis of `n` cells of outer size `S` with the single
data index `k` filtered (`k < n - 1`), every offset in `[k*S, (k+1)*S)`
resolves to data index `k+1` with filtered count `1`, and the returned pixel
range is `[k*S, (k+1)*S)` — the filtered position contributes zero pixels. -/
theorem claim_c4 (n : Nat) (v s S o : ℚ) (k : Nat) (hS : v + s = S)
    (hkn : k + 1 < n) (hk1 : (k : ℚ) * S ≤ o) (hk2 : o < ((k : ℚ) + 1) * S) :
    range_and_index_for_offset o (List.replicate n v) [] (some [k]) s =
      Except.ok ((k : ℚ) * S, ((k : ℚ) + 1) * S, k + 1, k + 1, 1) := by
  have hSpos : 0 < S := by nlinarith [hk1, hk2, Nat.cast_nonneg (α := ℚ) k]
  have hmain := raifoLoop_uniform_filtered n v s S o hS hSpos k hk1 hk2 hkn
    (max ([] : List Nat).length (List.replicate n v).length + 1) 0 (Nat.zero_le k)
    (by simp only [List.length_nil, List.length_replicate]; omega)
  rw [Nat.cast_zero, zero_mul] at hmain
  exact hmain

theorem claim_c4_witness :
    range_and_index_for_offset 6 (List.replicate 4 4) [] (some [1]) 1 =
      Except.ok (5, 10, 2, 2, 1) := by
  have h := claim_c4 4 4 1 5 6 1 (by norm_num) (by norm_num) (by norm_num) (by norm_num)
  norm_num at h
  exact h

/-! ### Axis parameters and the per-axis size store (lib.rs 226-265, 1272-1293) -/

/-- `egui::Rangef`.  The upper bound is `Option ℚ`, `none` modelling
`f32::INFINITY` (the only non-finite value the source puts in a range). -/
structure Rangef where
  min : ℚ
  max : Option ℚ

/-- `Rangef::clamp` (`x.clamp(self.min, self.max)`): for `min ≤ max` this is
`max(min, min(x, max))`; an infinite upper bound clamps from below only. -/
def Rangef.clamp (r : Rangef) (x : ℚ) : ℚ :=
  match r.max with
  | none => Max.max r.min x
  | some m => Max.max r.min (Min.min x m)

/-- `AxisParameters` (lib.rs 1272-1293).  The `Default` impl (lib.rs 1283-1293)
is `axis_parameters_default` below. -/
structure AxisParameters where
  name : Option String
  default_dimension : Option ℚ
  dimension_range : Rangef
  resizable : Bool
  monospace : Bool

/-- `AxisParameters::default()` (lib.rs 1283-1293): no name, no default
dimension, range `[10, ∞)`, resizable, not monospace. -/
def axis_parameters_default : AxisParameters :=
  ⟨none, none, ⟨10, none⟩, true, false⟩

/-- The sanitization of a configured default dimension (lib.rs 235-239,
256-260): clamped to the dimension range only when the axis is resizable. -/
def sanitize_default (p : AxisParameters) (d : ℚ) : ℚ :=
  if p.resizable then p.dimension_range.clamp d else d

/-- The `apply default widths` pass of `show_inner` (lib.rs 232-243 for
columns, 253-264 for rows): `parameters.iter().enumerate().for_each(..)`,
overwriting slot `i` with the sanitized default whenever `default_dimension`
is set.  The Rust indexed write `state.column_widths[index] = ..` panics when
`index` is out of range; `List.set` is the identity there instead, so theorems
about this pass keep the parameter list within the dimension count. -/
def apply_default_dims : List ℚ → Nat → List AxisParameters → List ℚ
  | ws, _, [] => ws
  | ws, i, p :: rest =>
    apply_default_dims
      (match p.default_dimension with
       | some d => ws.set i (sanitize_default p d)
       | none => ws) (i + 1) rest

/-- The per-axis size-store growth step of `show_inner` (lib.rs 226-244 for
column widths, 247-265 for row heights): when the store is shorter than the
frame's dimension count it is resized with the global default cell size
(`Vec::resize` appends) and then the configured default dimensions are
applied; otherwise it is left untouched (never truncated). -/
def ensure_axis_capacity (ws : List ℚ) (targetCount : Nat) (defaultSize : ℚ)
    (params : Option (List AxisParameters)) : List ℚ :=
  if ws.length < targetCount then
    match params with
    | none => ws ++ List.replicate (targetCount - ws.length) defaultSize
    | some ps =>
      apply_default_dims (ws ++ List.replicate (targetCount - ws.length) defaultSize) 0 ps
  else ws

theorem apply_default_dims_length :
    ∀ (ps : List AxisParameters) (ws : List ℚ) (i : Nat),
      (apply_default_dims ws i ps).length = ws.length
  | [], ws, i => rfl
  | p :: rest, ws, i => by
    rw [apply_default_dims]
    cases hd : p.default_dimension with
    | none => rw [apply_default_dims_length rest]
    | some d => rw [apply_default_dims_length rest, List.length_set]

theorem apply_default_dims_getElem_lt :
    ∀ (ps : List AxisParameters) (ws : List ℚ) (i j : Nat), j < i →
      (apply_default_dims ws i ps)[j]? = ws[j]?
  | [], ws, i, j, h => rfl
  | p :: rest, ws, i, j, h => by
    rw [apply_default_dims]
    cases hd : p.default_dimension with
    | none => rw [apply_default_dims_getElem_lt rest _ _ _ (by omega)]
    | some d =>
      rw [apply_default_dims_getElem_lt rest _ _ _ (by omega),
        List.getElem?_set_ne (by omega)]

theorem apply_default_dims_getElem_no_default :
    ∀ (ps : List AxisParameters) (ws : List ℚ) (i j : Nat), i ≤ j →
      (∀ p, ps[j - i]? = some p → p.default_dimension = none) →
      (apply_default_dims ws i ps)[j]? = ws[j]?
  | [], ws, i, j, hij, hnd => rfl
  | p :: rest, ws, i, j, hij, hnd => by
    rw [apply_default_dims]
    rcases Nat.eq_or_lt_of_le hij with rfl | hlt
    · have hp : p.default_dimension = none := by
        apply hnd
        simp
      rw [hp, apply_default_dims_getElem_lt rest _ _ _ (by omega)]
    · obtain ⟨m, hm⟩ : ∃ m, j - i = m + 1 := ⟨j - i - 1, by omega⟩
      have hnd' : ∀ p', rest[j - (i + 1)]? = some p' → p'.default_dimension = none := by
        intro p' hp'
        apply hnd
        rw [hm, List.getElem?_cons_succ]
        rw [show j - (i + 1) = m by omega] at hp'
        exact hp'
      cases hd : p.default_dimension with
      | none => rw [apply_default_dims_getElem_no_default rest _ _ _ (by omega) hnd']
      | some d =>
        rw [apply_default_dims_getElem_no_default rest _ _ _ (by omega) hnd',
          List.getElem?_set_ne (by omega)]

theorem apply_default_dims_getElem_default :
    ∀ (ps : List AxisParameters) (ws : List ℚ) (i j : Nat) (p : AxisParameters) (d : ℚ),
      i ≤ j → j < ws.length → ps[j - i]? = some p → p.default_dimension = some d →
      (apply_default_dims ws i ps)[j]? = some (sanitize_default p d)
  | [], ws, i, j, p, d, hij, hj, hp, hd => by simp at hp
  | q :: rest, ws, i, j, p, d, hij, hj, hp, hd => by
    rw [apply_default_dims]
    rcases Nat.eq_or_lt_of_le hij with rfl | hlt
    · obtain rfl : q = p := by simpa using hp
      rw [hd, apply_default_dims_getElem_lt rest _ _ _ (by omega),
        List.getElem?_set_self hj]
    · obtain ⟨m, hm⟩ : ∃ m, j - i = m + 1 := ⟨j - i - 1, by omega⟩
      have hp' : rest[j - (i + 1)]? = some p := by
        have hcons : (q :: rest)[m + 1]? = some p := by rw [← hm]; exact hp
        rw [List.getElem?_cons_succ] at hcons
        rw [show j - (i + 1) = m by omega]
        exact hcons
      cases hq : q.default_dimension with
      | none =>
        exact apply_default_dims_getElem_default rest _ _ _ _ _ (by omega) hj hp' hd
      | some dq =>
        rw [apply_default_dims_getElem_default rest _ _ _ _ _ (by omega)
          (by rw [List.length_set]; exact hj) hp' hd]

/-- An axis parameter entry with a configured default dimension of `50` and
the default range `[10, ∞)`, used to exhibit the overwrite of an existing
slot during growth. -/
def c5_params : AxisParameters := ⟨none, some 50, ⟨10, none⟩, true, false⟩

/-- Claim C5 counterexample: growing the store `[100]` (one already-stored,
e.g. user-resized, size) to length 2 while axis index 0 has a configured
`default_dimension` of 50 overwrites the stored size at index 0 — the
`apply default widths` pass (lib.rs 232-243) runs over *all* parameter
entries, not just the newly added slots, so indices `[0, L1)` are not left
unchanged. -/
theorem claim_c5_counterexample :
    ensure_axis_capacity [100] 2 7 (some [c5_params]) = [50, 7] ∧ (100 : ℚ) ≠ 50 := by
  constructor
  · norm_num [ensure_axis_capacity, apply_default_dims, c5_params, sanitize_default,
      Rangef.clamp, List.replicate]
  · norm_num

/-- Claim C5 (amended): calling with a target at most the current length never
modifies the store.  When growing from `L1` to `L2 > L1`, the store gets
length `L2`; a slot whose axis parameter supplies a `default_dimension` —
including slots below `L1` — holds the sanitized default (clamped to
`[minimum, maximum]` only when resizable); every other slot below `L1` keeps
its stored size, and every other new slot holds the global default cell
size.  The store is never truncated. -/
theorem claim_c5_amended (ws : List ℚ) (t : Nat) (d : ℚ) (ps : List AxisParameters)
    (hps : ps.length ≤ t) :
    (t ≤ ws.length → ensure_axis_capacity ws t d (some ps) = ws) ∧
    (ws.length < t →
      (ensure_axis_capacity ws t d (some ps)).length = t ∧
      (∀ (i : Nat) (p : AxisParameters) (dd : ℚ), ps[i]? = some p →
        p.default_dimension = some dd →
        (ensure_axis_capacity ws t d (some ps))[i]? = some (sanitize_default p dd)) ∧
      (∀ i : Nat, (∀ p, ps[i]? = some p → p.default_dimension = none) → i < ws.length →
        (ensure_axis_capacity ws t d (some ps))[i]? = ws[i]?) ∧
      (∀ i : Nat, (∀ p, ps[i]? = some p → p.default_dimension = none) → ws.length ≤ i →
        i < t → (ensure_axis_capacity ws t d (some ps))[i]? = some d)) := by
  constructor
  · intro hle
    rw [ensure_axis_capacity, if_neg (by omega)]
  · intro hgrow
    have hre_len : (ws ++ List.replicate (t - ws.length) d).length = t := by
      rw [List.length_append, List.length_replicate]; omega
    have hunfold : ensure_axis_capacity ws t d (some ps) =
        apply_default_dims (ws ++ List.replicate (t - ws.length) d) 0 ps := by
      rw [ensure_axis_capacity, if_pos hgrow]
    refine ⟨?_, ?_, ?_, ?_⟩
    · rw [hunfold, apply_default_dims_length, hre_len]
    · intro i p dd hp hdd
      have hips : i < ps.length := (List.getElem?_eq_some.mp hp).1
      rw [hunfold]
      exact apply_default_dims_getElem_default ps _ 0 i p dd (Nat.zero_le i)
        (by omega) (by simpa using hp) hdd
    · intro i hnd hiws
      rw [hunfold, apply_default_dims_getElem_no_default ps _ 0 i (Nat.zero_le i)
        (by simpa using hnd), List.getElem?_append_left hiws]
    · intro i hnd hwsi hit
      rw [hunfold, apply_default_dims_getElem_no_default ps _ 0 i (Nat.zero_le i)
        (by simpa using hnd), List.getElem?_append_right hwsi,
        List.getElem?_replicate, if_pos (by omega)]

theorem claim_c5_amended_witness :
    (ensure_axis_capacity [100] 2 7 (some [c5_params]))[0]? =
      some (sanitize_default c5_params 50) :=
  ((claim_c5_amended [100] 2 7 [c5_params] (by simp)).2 (by simp)).2.1 0 c5_params 50
    rfl rfl

/-! ### Resize drag (lib.rs 154, 611-641, 662-687) and reorder drop (lib.rs 806-819) -/

/-- `CellKind` (lib.rs 1080-1086). -/
inductive CellKind
  | Corner
  | ColumnHeader
  | RowHeader
  | Value
deriving DecidableEq

/-- `CellIndex` (lib.rs 1129-1133). -/
structure CellIndex where
  row : Nat
  column : Nat
deriving DecidableEq

/-- The source's `Action` enum (lib.rs 1094-1127); named `TableAction` here
because Lean's library already declares `Action`.  The reorder constructors
carry `from` then `to`. -/
inductive TableAction
  | CellClicked (cell : CellIndex)
  | ColumnReorder (fromIdx toIdx : Nat)
  | RowReorder (fromIdx toIdx : Nat)
deriving DecidableEq

/-- `DragState` (lib.rs 1201-1207). -/
structure DragState where
  index : Nat
  start_pos : ℚ × ℚ
  cell_kind : CellKind
  initial_size : ℚ

/-- `minimum_resize_size` (lib.rs 154):
`(style.interaction.resize_grab_radius_side * 2.0) + 2.0` — the spec's
`minimum_grabbable_size`. -/
def minimum_resize_size (resize_grab_radius_side : ℚ) : ℚ :=
  resize_grab_radius_side * 2 + 2

/-- The staged column width of an active column resize drag (lib.rs 623-629):
`new_outer = initial_size + drag_delta.x`, `new_inner = new_outer -
outer_inner_difference.x`, clamped to the column's `dimension_range`, then
`.at_least(minimum_resize_size)`. -/
def staged_column_width (initial_size drag_delta_x outer_inner_difference_x : ℚ)
    (p : AxisParameters) (min_resize : ℚ) : ℚ :=
  Max.max
    (p.dimension_range.clamp (initial_size + drag_delta_x - outer_inner_difference_x))
    min_resize

/-- The staged row height of an active row resize drag (lib.rs 673-676):
clamped to `Rangef::new(minimum_resize_size, f32::INFINITY)` — the row's
`AxisParameters` (minimum, maximum, resizable) are not consulted at all. -/
def staged_row_height (initial_size drag_delta_y outer_inner_difference_y : ℚ)
    (min_resize : ℚ) : ℚ :=
  Rangef.clamp ⟨min_resize, none⟩
    (initial_size + drag_delta_y - outer_inner_difference_y)

/-- The column resize-drag start (lib.rs 611-614): the whole block is guarded
by `column_parameters.resizable`; the slot is filled only when it is empty;
the new state is `pointer_pos.map(..)` (no pointer position leaves it empty). -/
def column_resize_drag_start (resizable drag_started : Bool)
    (drag_state : Option DragState) (pointer_state : Option DragState) :
    Option DragState :=
  if resizable then
    if drag_started && drag_state.isNone then pointer_state else drag_state
  else drag_state

/-- The row resize-drag start (lib.rs 662-664): unlike the column path, it is
not guarded by `resizable`. -/
def row_resize_drag_start (drag_started : Bool) (drag_state : Option DragState)
    (pointer_state : Option DragState) : Option DragState :=
  if drag_started && drag_state.isNone then pointer_state else drag_state

/-- The drag-and-drop release handling (lib.rs 806-819): the emitted reorder
action (if any) as a function of the dropped payload's kind and mapped index
and the drop target's kind and mapped indices.  The ordering permutation is
not an input: the handler only pushes an `Action`. -/
def dnd_release_action (payload_kind : CellKind) (payload_index : Nat)
    (cell_kind : CellKind) (mapped_column_index mapped_row_index : Nat) :
    Option TableAction :=
  match payload_kind, cell_kind with
  | CellKind.ColumnHeader, CellKind.ColumnHeader =>
    if payload_index ≠ mapped_column_index then
      some (TableAction.ColumnReorder payload_index mapped_column_index)
    else none
  | CellKind.RowHeader, CellKind.RowHeader =>
    if payload_index ≠ mapped_row_index then
      some (TableAction.RowReorder payload_index mapped_row_index)
    else none
  | _, _ => none

/-- Axis parameters with `minimum_dimension = 1` and `maximum_dimension = 5`,
below the minimum grabbable size for the default grab radius 5. -/
def c7_params : AxisParameters := ⟨none, none, ⟨1, some 5⟩, true, false⟩

/-- Claim C7 counterexample: with dimension range `[1, 5]` and grab radius `5`
(`minimum_grabbable_size = 12`), the staged column width is `12`, which is not
`≤ maximum_dimension = 5`: the `at_least(minimum_grabbable_size)` step is
applied after the range clamp and can exceed `maximum_dimension`, so the
claimed interval `[max(min, 12), 5]` is not respected (it is empty here). -/
theorem claim_c7_counterexample :
    staged_column_width 0 0 0 c7_params (minimum_resize_size 5) = 12 ∧
    ¬ staged_column_width 0 0 0 c7_params (minimum_resize_size 5) ≤ 5 := by
  constructor <;>
    norm_num [staged_column_width, c7_params, minimum_resize_size, Rangef.clamp]

/-- Claim C7 (amended): the staged column width always lies above
`max(minimum_dimension, minimum_grabbable_size)`, and below
`max(maximum_dimension, minimum_grabbable_size)` (not `maximum_dimension`
itself) whenever the range is well-formed; the staged row height is only
bounded below by `minimum_grabbable_size` — row resizing ignores the axis
parameters entirely. -/
theorem claim_c7_amended (initial delta diff r : ℚ) (p : AxisParameters) :
    Max.max p.dimension_range.min (minimum_resize_size r) ≤
      staged_column_width initial delta diff p (minimum_resize_size r) ∧
    (∀ m : ℚ, p.dimension_range.max = some m → p.dimension_range.min ≤ m →
      staged_column_width initial delta diff p (minimum_resize_size r) ≤
        Max.max m (minimum_resize_size r)) ∧
    minimum_resize_size r ≤ staged_row_height initial delta diff (minimum_resize_size r) := by
  refine ⟨?_, ?_, ?_⟩
  · have hc : p.dimension_range.min ≤
        p.dimension_range.clamp (initial + delta - diff) := by
      unfold Rangef.clamp
      split
      · exact le_max_left _ _
      · exact le_max_left _ _
    exact max_le (le_trans hc (le_max_left _ _)) (le_max_right _ _)
  · intro m hm hmm
    simp only [staged_column_width, Rangef.clamp, hm]
    exact max_le_max (max_le hmm (min_le_right _ _)) le_rfl
  · simp only [staged_row_height, Rangef.clamp]
    exact le_max_left _ _

theorem claim_c7_amended_witness :
    Max.max c7_params.dimension_range.min (minimum_resize_size 5) ≤
      staged_column_width 100 0 0 c7_params (minimum_resize_size 5) ∧
    staged_column_width 100 0 0 c7_params (minimum_resize_size 5) ≤
      Max.max 5 (minimum_resize_size 5) ∧
    minimum_resize_size 5 ≤ staged_row_height 100 0 0 (minimum_resize_size 5) := by
  have h := claim_c7_amended 100 0 0 5 c7_params
  exact ⟨h.1, h.2.1 5 rfl (by norm_num [c7_params]), h.2.2⟩

/-- Row axis parameters marked non-resizable. -/
def c8_row_params : AxisParameters := ⟨none, none, ⟨10, none⟩, false, false⟩

/-- A drag state for row index 3 as built at lib.rs 663. -/
def c8_drag_state : DragState := ⟨3, (0, 0), CellKind.RowHeader, 20⟩

/-- Claim C8 counterexample: the row resize-drag start (lib.rs 662-664) never
consults `resizable` — with the row's axis parameters marked non-resizable, a
primary drag on the row handle still transitions the empty drag slot into
`Dragging`. -/
theorem claim_c8_counterexample :
    row_resize_drag_start true none (some c8_drag_state) = some c8_drag_state ∧
    c8_row_params.resizable = false :=
  ⟨rfl, rfl⟩

/-- Claim C8 (amended): a resize drag on either axis starts only when the
single shared drag-state slot is empty — an active drag is never replaced, so
at most one axis index is being resized at any instant — and the column path
additionally requires the column's `resizable`; the row path starts without
checking `resizable`. -/
theorem claim_c8_amended (resizable drag_started : Bool) (o : DragState)
    (ptr : Option DragState) :
    column_resize_drag_start resizable drag_started (some o) ptr = some o ∧
    row_resize_drag_start drag_started (some o) ptr = some o ∧
    column_resize_drag_start resizable drag_started none ptr =
      (if resizable && drag_started then ptr else none) ∧
    row_resize_drag_start drag_started none ptr =
      (if drag_started then ptr else none) := by
  cases resizable <;> cases drag_started <;>
    simp [column_resize_drag_start, row_resize_drag_start]

/-- Claim C9: on a header drop, a reorder action is emitted iff the payload
and target cell kinds are the same header kind and the mapped data indices
differ; the emitted action is `ColumnReorder{from: source, to: target}`
(resp. `RowReorder`); cross-kind drops emit nothing.  `dnd_release_action`
takes no ordering input, so the drop handling cannot mutate the ordering
permutation. -/
theorem claim_c9 (pk : CellKind) (pidx : Nat) (ck : CellKind) (mci mri : Nat) :
    ((dnd_release_action pk pidx ck mci mri).isSome ↔
      ((pk = CellKind.ColumnHeader ∧ ck = CellKind.ColumnHeader ∧ pidx ≠ mci) ∨
       (pk = CellKind.RowHeader ∧ ck = CellKind.RowHeader ∧ pidx ≠ mri))) ∧
    (pk = CellKind.ColumnHeader → ck = CellKind.ColumnHeader → pidx ≠ mci →
      dnd_release_action pk pidx ck mci mri = some (TableAction.ColumnReorder pidx mci)) ∧
    (pk = CellKind.RowHeader → ck = CellKind.RowHeader → pidx ≠ mri →
      dnd_release_action pk pidx ck mci mri = some (TableAction.RowReorder pidx mri)) := by
  cases pk <;> cases ck <;> by_cases h1 : pidx = mci <;> by_cases h2 : pidx = mri <;>
    simp [dnd_release_action, h1, h2]

theorem claim_c9_witness :
    dnd_release_action CellKind.ColumnHeader 0 CellKind.ColumnHeader 1 0 =
      some (TableAction.ColumnReorder 0 1) :=
  (claim_c9 CellKind.ColumnHeader 0 CellKind.ColumnHeader 1 0).2.1 rfl rfl
    (by decide)
